import Mathlib

/-!
A shallow embedding of the catalog-to-registry seed converter
(`convertBraces`, `extractVars`, `buildConfigMap`, `transformEntry`, and the
batch loop in `main`) together with proofs about the transformation core.

Go strings are modelled as `List Char` (one element per byte; all string
constants involved are ASCII).  Go maps are modelled as association lists in
iteration order; a Go map assignment `m[k] = v` is `mapInsert`, which
overwrites the entry for an existing key and appends a new one otherwise.
-/

abbrev GoStr := List Char

/-- Convenience conversion from a Lean string literal. -/
def gs (s : String) : GoStr := s.toList

/-- The character `\x7b` (opening curly brace). -/
def lbrace : Char := '\x7b'

/-- The character `\x7d` (closing curly brace). -/
def rbrace : Char := '\x7d'

/-- The Go string constant of two opening braces. -/
def obr2 : GoStr := [lbrace, lbrace]

/-- The Go string constant of one opening brace. -/
def obr1 : GoStr := [lbrace]

/-- The Go string constant of two closing braces. -/
def cbr2 : GoStr := [rbrace, rbrace]

/-- The Go string constant of one closing brace. -/
def cbr1 : GoStr := [rbrace]

/-- `strings.Index(s, pat)`: position of the first occurrence of `pat` in
`s`, `none` when absent (Go returns `-1`). -/
def indexOf (pat : GoStr) : GoStr → Option Nat
  | [] => if pat = [] then some 0 else none
  | c :: rest =>
    if pat.isPrefixOf (c :: rest) then some 0
    else (indexOf pat rest).map (· + 1)

/-- `strings.Contains(s, pat)`, via `strings.Index`. -/
def containsSub (s pat : GoStr) : Bool := (indexOf pat s).isSome

/-- `pat` occurs as a contiguous substring of `s`. -/
def SubStr (pat s : GoStr) : Prop := ∃ u v, s = u ++ pat ++ v

theorem isPrefixOf_iff (pat s : GoStr) :
    pat.isPrefixOf s = true ↔ ∃ t, s = pat ++ t := by
  induction pat generalizing s with
  | nil => simp [List.isPrefixOf]
  | cons p ps ih =>
    cases s with
    | nil => simp [List.isPrefixOf]
    | cons c rest =>
      simp only [List.isPrefixOf, Bool.and_eq_true, beq_iff_eq, ih, List.cons_append,
        List.cons.injEq]
      constructor
      · rintro ⟨rfl, t, rfl⟩; exact ⟨t, rfl, rfl⟩
      · rintro ⟨t, rfl, rfl⟩; exact ⟨rfl, t, rfl⟩

theorem indexOf_spec {pat s : GoStr} {i : Nat} (h : indexOf pat s = some i) :
    ∃ t, s.drop i = pat ++ t := by
  induction s generalizing i with
  | nil =>
    unfold indexOf at h
    split at h
    · rename_i hp
      injection h with h0
      subst h0
      exact ⟨[], by simp [hp]⟩
    · simp at h
  | cons c rest ih =>
    unfold indexOf at h
    split at h
    · rename_i hp
      injection h with h0
      subst h0
      exact (isPrefixOf_iff pat (c :: rest)).mp hp
    · simp only [Option.map_eq_some'] at h
      obtain ⟨i', hi', rfl⟩ := h
      simpa using ih hi'

theorem indexOf_min {pat s : GoStr} {i : Nat} (h : indexOf pat s = some i) :
    ∀ j < i, pat.isPrefixOf (s.drop j) = false := by
  induction s generalizing i with
  | nil =>
    unfold indexOf at h
    split at h
    · injection h with h0; subst h0; omega
    · simp at h
  | cons c rest ih =>
    unfold indexOf at h
    split at h
    · injection h with h0; subst h0; omega
    · rename_i hp
      simp only [Option.map_eq_some'] at h
      obtain ⟨i', hi', rfl⟩ := h
      intro j hj
      cases j with
      | zero =>
        simp only [Bool.not_eq_true] at hp
        simp only [List.drop_zero]
        exact hp
      | succ j' => exact ih hi' j' (by omega)

theorem indexOf_none_all {pat s : GoStr} (h : indexOf pat s = none) :
    ∀ j, pat.isPrefixOf (s.drop j) = false := by
  induction s with
  | nil =>
    unfold indexOf at h
    split at h
    · simp at h
    · rename_i hp
      intro j
      cases pat with
      | nil => simp at hp
      | cons p ps => simp [List.isPrefixOf]
  | cons c rest ih =>
    unfold indexOf at h
    split at h
    · simp at h
    · rename_i hp
      simp only [Option.map_eq_none'] at h
      intro j
      cases j with
      | zero =>
        simp only [Bool.not_eq_true] at hp
        simp only [List.drop_zero]
        exact hp
      | succ j' => exact ih h j'

theorem indexOf_some_ne_nil {pat s : GoStr} {i : Nat}
    (h : indexOf pat s = some i) (hpat : pat ≠ []) : s ≠ [] := by
  intro hs
  subst hs
  unfold indexOf at h
  split at h
  · rename_i hp
    exact hpat hp
  · simp at h

theorem containsSub_iff (s pat : GoStr) : containsSub s pat = true ↔ SubStr pat s := by
  unfold containsSub
  constructor
  · intro h
    obtain ⟨i, hi⟩ := Option.isSome_iff_exists.mp h
    obtain ⟨t, ht⟩ := indexOf_spec hi
    exact ⟨s.take i, t, by rw [List.append_assoc, ← ht, List.take_append_drop]⟩
  · rintro ⟨u, v, rfl⟩
    cases hidx : indexOf pat (u ++ pat ++ v) with
    | some i => simp
    | none =>
      exfalso
      have h1 := indexOf_none_all hidx u.length
      rw [List.append_assoc, List.drop_left] at h1
      have h2 : pat.isPrefixOf (pat ++ v) = true := (isPrefixOf_iff _ _).mpr ⟨v, rfl⟩
      rw [h1] at h2
      exact Bool.false_ne_true h2

/-- `strings.ReplaceAll(s, pat, rep)`: replace every non-overlapping
occurrence of `pat` in `s` by `rep`, scanning left to right.  (The source
only calls this with the two-character patterns of doubled braces.) -/
def replaceAll (pat rep : GoStr) : GoStr → GoStr
  | [] => []
  | c :: rest =>
    if pat.isPrefixOf (c :: rest) then
      rep ++ replaceAll pat rep (List.drop (pat.length - 1) rest)
    else
      c :: replaceAll pat rep rest
termination_by s => s.length
decreasing_by
  · simp only [List.length_cons, List.length_drop]
    omega
  · simp only [List.length_cons]
    omega

/-- `convertBraces` from the source: collapse every `\x7b\x7b` to `\x7b`,
then every `\x7d\x7d` to `\x7d`. -/
def convertBraces (value : GoStr) : GoStr :=
  replaceAll cbr2 cbr1 (replaceAll obr2 obr1 value)

theorem replaceAll_of_indexOf_none {pat rep s : GoStr}
    (h : indexOf pat s = none) : replaceAll pat rep s = s := by
  induction s with
  | nil => rw [replaceAll]
  | cons c rest ih =>
    unfold indexOf at h
    split at h
    · simp at h
    · rename_i hp
      simp only [Option.map_eq_none'] at h
      rw [replaceAll]
      simp only [Bool.not_eq_true] at hp
      rw [if_neg (by simp [hp])]
      rw [ih h]

/-! ## Data model

Input-side structures mirror the Go `DockerCatalogEntry` family; output-side
structures mirror `RegistryServer`.  Field defaults are the Go zero values.
Go's `Type` field is written `type` (lower case, as in its JSON tag) because
`Type` is reserved in Lean. -/

/-- A JSON-like value standing in for Go's `interface\x7b\x7d` attribute bags. -/
inductive JSONValue where
  | null
  | bool (b : Bool)
  | num (n : Int)
  | str (s : GoStr)
  | arr (elems : List JSONValue)
  | obj (fields : List (GoStr × JSONValue))

abbrev PropBag := List (GoStr × JSONValue)

abbrev ConfigMap := List (GoStr × PropBag)

structure Tool where
  Name : GoStr := []
deriving DecidableEq

structure Metadata where
  Pulls : Int := 0
  Stars : Int := 0
  GitHubStars : Int := 0
  Category : GoStr := []
  Tags : List GoStr := []
  License : GoStr := []
  Owner : GoStr := []
deriving DecidableEq

structure Secret where
  Name : GoStr := []
  Env : GoStr := []
  Example : GoStr := []
deriving DecidableEq

structure EnvVar where
  Name : GoStr := []
  Value : GoStr := []
deriving DecidableEq

structure Config where
  Name : GoStr := []
  Description : GoStr := []
  type : GoStr := []
  Properties : PropBag := []
  Required : List GoStr := []

structure Remote where
  TransportType : GoStr := []
  URL : GoStr := []
  Headers : List (GoStr × GoStr) := []
deriving DecidableEq

structure OAuthProvider where
  Provider : GoStr := []
  Secret : GoStr := []
  Env : GoStr := []
deriving DecidableEq

structure OAuth where
  Providers : List OAuthProvider := []
deriving DecidableEq

structure DockerCatalogEntry where
  Description : GoStr := []
  Title : GoStr := []
  type : GoStr := []
  DateAdded : GoStr := []
  Image : GoStr := []
  Ref : GoStr := []
  Readme : GoStr := []
  ToolsURL : GoStr := []
  Source : GoStr := []
  Upstream : GoStr := []
  Icon : GoStr := []
  Tools : List Tool := []
  Prompts : Int := 0
  Resources : PropBag := []
  Metadata : Metadata := {}
  Secrets : List Secret := []
  Env : List EnvVar := []
  Command : List GoStr := []
  Volumes : List GoStr := []
  Config : List Config := []
  Remote : Option Remote := none
  User : GoStr := []
  LongLived : Bool := false
  AllowHosts : List GoStr := []
  OAuth : Option OAuth := none

structure InputSchema where
  IsSecret : Bool := false
  IsRequired : Bool := false
  Format : GoStr := []
  Description : GoStr := []
deriving DecidableEq

structure KeyValueInput where
  Name : GoStr := []
  Value : GoStr := []
  Description : GoStr := []
  IsRequired : Bool := false
  IsSecret : Bool := false
  IsRepeated : Bool := false
  Variables : List (GoStr × InputSchema) := []
deriving DecidableEq

structure Argument where
  type : GoStr := []
  Name : GoStr := []
  Value : GoStr := []
  IsRequired : Bool := false
  IsSecret : Bool := false
  IsRepeated : Bool := false
  Variables : List (GoStr × InputSchema) := []
deriving DecidableEq

structure Transport where
  type : GoStr := []
  URL : GoStr := []
  Headers : List KeyValueInput := []
deriving DecidableEq

structure Package where
  RegistryType : GoStr := []
  Transport : Transport := {}
  Identifier : GoStr := []
  Version : GoStr := []
  EnvironmentVariables : List KeyValueInput := []
  PackageArguments : List Argument := []
  RuntimeArguments : List Argument := []
  RuntimeHint : GoStr := []
deriving DecidableEq

structure Repository where
  URL : GoStr := []
  Source : GoStr := []
  Subfolder : GoStr := []
deriving DecidableEq

structure RegistryServer where
  Schema : GoStr := []
  Name : GoStr := []
  Description : GoStr := []
  Version : GoStr := []
  Packages : List Package := []
  Remotes : List Transport := []
  Repository : Option Repository := none
  WebsiteURL : GoStr := []
  Meta : PropBag := []

/-! ## Map helpers -/

/-- First-match association-list lookup, modelling a Go map read. -/
def lookupA {α : Type} : List (GoStr × α) → GoStr → Option α
  | [], _ => none
  | (k, v) :: rest, key => if k = key then some v else lookupA rest key

/-- Go map assignment `m[k] = v`: overwrite the entry of an existing key,
append a fresh entry otherwise. -/
def mapInsert {α : Type} (m : List (GoStr × α)) (k : GoStr) (v : α) :
    List (GoStr × α) :=
  match lookupA m k with
  | some _ => m.map (fun p => if p.1 = k then (k, v) else p)
  | none => m ++ [(k, v)]

/-! ## The placeholder scanner and config index -/

/-- Go slicing `s[a:b]` (for `a ≤ b ≤ len s`, the only way it is used). -/
def goSlice (s : GoStr) (a b : Nat) : GoStr := (s.drop a).take (b - a)

/-- `strings.Split(s, sep)` for a one-character separator. -/
def splitOnChar (sep : Char) : GoStr → List GoStr
  | [] => [[]]
  | c :: rest =>
    if c = sep then [] :: splitOnChar sep rest
    else
      match splitOnChar sep rest with
      | [] => [[c]]
      | p :: ps => (c :: p) :: ps

/-- `strings.SplitN(s, sep, 2)` for a one-character separator: at most two
parts, the second being everything after the first separator. -/
def splitN2 (s : GoStr) (sep : Char) : List GoStr :=
  let pre := s.takeWhile (fun c => c ≠ sep)
  if pre.length = s.length then [s] else [pre, s.drop (pre.length + 1)]

/-- The `InputSchema` built for one extracted variable inside `extractVars`:
never secret, format `"string"`, description copied from the config index
when the key is present there with a string `description` attribute. -/
def mkSchema (configMap : ConfigMap) (varName : GoStr) : InputSchema :=
  let base : InputSchema := { IsSecret := false, Format := gs "string" }
  match lookupA configMap varName with
  | some configProp =>
    match lookupA configProp (gs "description") with
    | some (JSONValue.str d) => { base with Description := d }
    | _ => base
  | none => base

/-- The scanning loop of `extractVars`, recursing on the suffix that follows
the processed placeholder (`start = endIdx + 2` in the source).  The `fuel`
argument makes the recursion structural; one character of fuel per input
character is more than enough since every iteration consumes at least four
characters. -/
def extractVarsF (configMap : ConfigMap) :
    Nat → GoStr → List (GoStr × InputSchema) → List (GoStr × InputSchema)
  | 0, _, vars => vars
  | fuel + 1, s, vars =>
    match indexOf obr2 s with
    | none => vars
    | some i =>
      match indexOf cbr2 (s.drop i) with
      | none => vars
      | some j =>
        let varContent := goSlice s (i + 2) (i + j)
        let varName := (splitOnChar '|' varContent).headD []
        extractVarsF configMap fuel (s.drop (i + j + 2))
          (mapInsert vars varName (mkSchema configMap varName))

/-- `extractVars` from the source. -/
def extractVars (value : GoStr) (configMap : ConfigMap) :
    List (GoStr × InputSchema) :=
  extractVarsF configMap value.length value []

/-- The same scan as `extractVarsF`, but recording the raw contents of the
placeholders (the text strictly between the brace pairs) instead of building
the variables map; used to state properties of the scan. -/
def extractContentsF : Nat → GoStr → List GoStr
  | 0, _ => []
  | fuel + 1, s =>
    match indexOf obr2 s with
    | none => []
    | some i =>
      match indexOf cbr2 (s.drop i) with
      | none => []
      | some j => goSlice s (i + 2) (i + j) :: extractContentsF fuel (s.drop (i + j + 2))

/-- The raw placeholder contents scanned by `extractVars` on `value`. -/
def extractContents (value : GoStr) : List GoStr :=
  extractContentsF value.length value

/-- `buildConfigMap` from the source: index every config-block property
under `blockName ++ "." ++ key`, skipping non-object property values. -/
def buildConfigMap (configs : List Config) : ConfigMap :=
  configs.foldl (fun result cfg =>
    cfg.Properties.foldl (fun res kv =>
      match kv.2 with
      | JSONValue.obj propMap => mapInsert res (cfg.Name ++ gs "." ++ kv.1) propMap
      | _ => res) result) []

/-! ## The entry transformer and batch loop -/

/-- `transformEntry` from the source. -/
def transformEntry (name : GoStr) (entry : DockerCatalogEntry) : RegistryServer :=
  let description :=
    if entry.Description.length > 100 then entry.Description.take 97 ++ gs "..."
    else entry.Description
  let configMap := buildConfigMap entry.Config
  let publisherProvided : PropBag :=
    [(gs "pulls", JSONValue.num entry.Metadata.Pulls),
     (gs "githubStars", JSONValue.num entry.Metadata.GitHubStars),
     (gs "category", JSONValue.str entry.Metadata.Category),
     (gs "tags", JSONValue.arr (entry.Metadata.Tags.map JSONValue.str)),
     (gs "license", JSONValue.str entry.Metadata.License),
     (gs "owner", JSONValue.str entry.Metadata.Owner),
     (gs "tools", JSONValue.arr (entry.Tools.map (fun t =>
        JSONValue.obj [(gs "name", JSONValue.str t.Name)]))),
     (gs "source", JSONValue.str entry.Source),
     (gs "icon", JSONValue.str entry.Icon),
     (gs "prompts", JSONValue.num entry.Prompts),
     (gs "title", JSONValue.str entry.Title),
     (gs "readme", JSONValue.str entry.Readme),
     (gs "toolsUrl", JSONValue.str entry.ToolsURL),
     (gs "dateAdded", JSONValue.str entry.DateAdded),
     (gs "upstream", JSONValue.str entry.Upstream),
     (gs "resources", JSONValue.obj entry.Resources)]
  let publisherProvided :=
    if entry.Metadata.Stars > 0 then
      publisherProvided ++ [(gs "stars", JSONValue.num entry.Metadata.Stars)]
    else publisherProvided
  let server : RegistryServer :=
    { Schema := gs "https://static.modelcontextprotocol.io/schemas/2025-10-17/server.schema.json",
      Name := gs "com.docker.mcp/" ++ name,
      Description := description,
      Version := gs "v0.1.0",
      Meta := [(gs "io.modelcontextprotocol.registry/publisher-provided",
                JSONValue.obj publisherProvided)] }
  let pkg : Package := { RegistryType := gs "oci", Transport := { type := gs "stdio" } }
  let pkg := if entry.Image ≠ [] then { pkg with Identifier := entry.Image } else pkg
  let envKVs := entry.Env.map (fun env =>
    let value := convertBraces env.Value
    let kv : KeyValueInput := { Name := env.Name, Value := value }
    if containsSub env.Value obr2 then
      let vars := extractVars env.Value configMap
      if vars.length > 0 then
        { kv with Variables := vars, IsRepeated := false }
      else kv
    else kv)
  let secretKVs := entry.Secrets.map (fun secret =>
    { Name := secret.Env,
      Value := obr1 ++ secret.Name ++ cbr1,
      Variables := [(secret.Name,
        ({ IsSecret := true, IsRequired := true } : InputSchema))] : KeyValueInput })
  let pkg := { pkg with EnvironmentVariables := envKVs ++ secretKVs }
  let pkgArgs := entry.Command.map (fun cmd =>
    if (gs "--").isPrefixOf cmd then
      let parts := splitN2 cmd '='
      let arg : Argument := { type := gs "named", Name := parts.headD [] }
      if parts.length > 1 then
        let p1 := parts.getD 1 []
        let arg := { arg with Value := convertBraces p1 }
        if containsSub p1 obr2 then
          { arg with Variables := extractVars p1 configMap, IsRepeated := false }
        else arg
      else arg
    else
      { type := gs "positional", Value := cmd })
  let pkg := { pkg with PackageArguments := pkgArgs }
  let volArgs := entry.Volumes.map (fun vol =>
    let value := convertBraces vol
    let arg : Argument := { type := gs "named", Name := gs "-v", Value := value }
    if containsSub vol obr2 then
      { arg with Variables := extractVars vol configMap, IsRepeated := false }
    else arg)
  let userArgs :=
    if entry.User ≠ [] then
      let value := convertBraces entry.User
      let arg : Argument := { type := gs "named", Name := gs "-u", Value := value }
      [if containsSub entry.User obr2 then
        { arg with Variables := extractVars entry.User configMap, IsRepeated := false }
      else arg]
    else []
  let runtimeArgs := volArgs ++ userArgs
  let pkg := { pkg with RuntimeArguments := runtimeArgs }
  let pkg := if runtimeArgs.length > 0 then { pkg with RuntimeHint := gs "docker" } else pkg
  let pkgServer := { server with Packages := [pkg] }
  let pkgServer :=
    if entry.Upstream ≠ [] then
      let sourceID :=
        if containsSub entry.Upstream (gs "github.com") then gs "github"
        else if containsSub entry.Upstream (gs "gitlab.com") then gs "gitlab"
        else []
      { pkgServer with Repository := some { URL := entry.Upstream, Source := sourceID } }
    else pkgServer
  if entry.type = gs "remote" then
    match entry.Remote with
    | some remote =>
      let transport : Transport :=
        { type := remote.TransportType,
          URL := remote.URL,
          Headers := remote.Headers.map (fun p =>
            ({ Name := p.1, Value := p.2 } : KeyValueInput)) }
      { server with Remotes := [transport] }
    | none => pkgServer
  else pkgServer

/-- The batch loop of `main`: skip every entry whose type is `"remote"`,
transform the survivors in iteration order, collect the results. -/
def mainServers (registry : List (GoStr × DockerCatalogEntry)) : List RegistryServer :=
  registry.foldl (fun servers p =>
    if p.2.type = gs "remote" then servers
    else servers ++ [transformEntry p.1 p.2]) []

/-! ## Helper lemmas on lists and maps -/

theorem getLast?_cons_of_ne_nil {c : Char} {l : GoStr} (h : l ≠ []) :
    (c :: l).getLast? = l.getLast? := by
  cases l with
  | nil => exact absurd rfl h
  | cons d l' => simp [List.getLast?]

theorem drop_add (s : GoStr) (a b : Nat) : s.drop (a + b) = (s.drop a).drop b := by
  rw [List.drop_drop, Nat.add_comm]

theorem lookupA_some_mem_keys {α : Type} {m : List (GoStr × α)} {k : GoStr} {w : α}
    (h : lookupA m k = some w) : k ∈ m.map Prod.fst := by
  induction m with
  | nil => simp [lookupA] at h
  | cons p rest ih =>
    rw [lookupA] at h
    split at h
    · rename_i hk
      exact hk ▸ List.mem_map_of_mem Prod.fst (List.mem_cons_self p rest)
    · simp only [List.map_cons]
      exact List.mem_cons_of_mem _ (ih h)

theorem mem_keys_mapInsert_self {α : Type} (m : List (GoStr × α)) (k : GoStr) (v : α) :
    k ∈ (mapInsert m k v).map Prod.fst := by
  unfold mapInsert
  cases hl : lookupA m k with
  | none =>
    show k ∈ (m ++ [(k, v)]).map Prod.fst
    simp only [List.map_append]
    exact List.mem_append_right _ (by simp)
  | some w =>
    show k ∈ (m.map fun p => if p.1 = k then (k, v) else p).map Prod.fst
    have hmem := lookupA_some_mem_keys hl
    simp only [List.mem_map] at hmem ⊢
    obtain ⟨p, hp, hpk⟩ := hmem
    refine ⟨(k, v), ⟨p, hp, ?_⟩, rfl⟩
    rw [if_pos hpk]

theorem mem_keys_mapInsert_mono {α : Type} (m : List (GoStr × α)) (k : GoStr) (v : α)
    (x : GoStr) (hx : x ∈ m.map Prod.fst) : x ∈ (mapInsert m k v).map Prod.fst := by
  unfold mapInsert
  cases hl : lookupA m k with
  | none =>
    show x ∈ (m ++ [(k, v)]).map Prod.fst
    simp only [List.map_append]
    exact List.mem_append_left _ hx
  | some w =>
    show x ∈ (m.map fun p => if p.1 = k then (k, v) else p).map Prod.fst
    simp only [List.mem_map] at hx ⊢
    obtain ⟨p, hp, hpk⟩ := hx
    by_cases hcase : p.1 = k
    · refine ⟨(k, v), ⟨p, hp, ?_⟩, ?_⟩
      · rw [if_pos hcase]
      · rw [← hpk, hcase]
    · exact ⟨p, ⟨p, hp, by rw [if_neg hcase]⟩, hpk⟩

theorem splitOnChar_ne_nil (sep : Char) (s : GoStr) : splitOnChar sep s ≠ [] := by
  cases s with
  | nil => simp [splitOnChar]
  | cons c rest =>
    rw [splitOnChar]
    split
    · simp
    · split <;> simp

theorem headD_splitOnChar_of_no_sep (sep : Char) (s : GoStr)
    (h : ∀ c ∈ s, c ≠ sep) : (splitOnChar sep s).headD [] = s := by
  induction s with
  | nil => rfl
  | cons c rest ih =>
    have hc : c ≠ sep := h c (by simp)
    rw [splitOnChar, if_neg hc]
    cases hsp : splitOnChar sep rest with
    | nil => exact absurd hsp (splitOnChar_ne_nil sep rest)
    | cons p ps =>
      have := ih (fun x hx => h x (by simp [hx]))
      rw [hsp] at this
      simp at this ⊢
      exact this

/-! ## How `replaceAll` treats a protected region -/

theorem replaceAll_copy_no_open (m v : GoStr) (hm : ∀ x ∈ m, x ≠ lbrace) :
    replaceAll obr2 obr1 (m ++ v) = m ++ replaceAll obr2 obr1 v := by
  induction m with
  | nil => simp
  | cons c m' ih =>
    have hc : c ≠ lbrace := hm c (by simp)
    rw [List.cons_append, replaceAll, if_neg ?_]
    · rw [ih (fun x hx => hm x (by simp [hx]))]
      rfl
    · intro hpre
      obtain ⟨t, ht⟩ := (isPrefixOf_iff _ _).mp hpre
      rw [show obr2 = [lbrace, lbrace] from rfl] at ht
      exact hc (by injection ht)

theorem replaceAll_open_step (w : GoStr) :
    replaceAll obr2 obr1 (obr2 ++ w) = obr1 ++ replaceAll obr2 obr1 w := by
  have hp : obr2.isPrefixOf (lbrace :: lbrace :: w) = true :=
    (isPrefixOf_iff obr2 (lbrace :: lbrace :: w)).mpr ⟨w, rfl⟩
  rw [show obr2 ++ w = lbrace :: (lbrace :: w) from rfl]
  rw [replaceAll, if_pos hp]
  rfl

theorem replaceAll_close_step (m v : GoStr) (hm : ∀ x ∈ m, x ≠ rbrace) :
    replaceAll cbr2 cbr1 (m ++ cbr2 ++ v) = m ++ cbr1 ++ replaceAll cbr2 cbr1 v := by
  induction m with
  | nil =>
    have hp : cbr2.isPrefixOf (rbrace :: rbrace :: v) = true :=
      (isPrefixOf_iff cbr2 (rbrace :: rbrace :: v)).mpr ⟨v, rfl⟩
    rw [List.nil_append, List.nil_append]
    rw [show cbr2 ++ v = rbrace :: (rbrace :: v) from rfl]
    rw [replaceAll, if_pos hp]
    rfl
  | cons c m' ih =>
    have hc : c ≠ rbrace := hm c (by simp)
    rw [List.cons_append, List.cons_append, replaceAll, if_neg ?_]
    · rw [show (m' ++ cbr2) ++ v = m' ++ cbr2 ++ v from rfl,
        ih (fun x hx => hm x (by simp [hx]))]
      rfl
    · intro hpre
      obtain ⟨t, ht⟩ := (isPrefixOf_iff _ _).mp hpre
      rw [show cbr2 = [rbrace, rbrace] from rfl] at ht
      exact hc (by injection ht)

theorem replaceAll_open_protect :
    ∀ (n : Nat) (u m v : GoStr), u.length ≤ n → u.getLast? ≠ some lbrace →
      (∀ x ∈ m, x ≠ lbrace) →
      ∃ w, replaceAll obr2 obr1 (u ++ obr2 ++ m ++ v)
            = w ++ obr1 ++ m ++ replaceAll obr2 obr1 v := by
  intro n
  induction n with
  | zero =>
    intro u m v hu _ hm
    have hu0 : u = [] := List.length_eq_zero.mp (by omega)
    subst hu0
    refine ⟨[], ?_⟩
    rw [List.nil_append, List.append_assoc, replaceAll_open_step,
      replaceAll_copy_no_open m v hm]
    simp
  | succ n ih =>
    intro u m v hu hlast hm
    cases u with
    | nil =>
      refine ⟨[], ?_⟩
      rw [List.nil_append, List.append_assoc, replaceAll_open_step,
        replaceAll_copy_no_open m v hm]
      simp
    | cons c u' =>
      by_cases hpre : obr2.isPrefixOf ((c :: u') ++ obr2 ++ m ++ v) = true
      · obtain ⟨t, ht⟩ := (isPrefixOf_iff _ _).mp hpre
        rw [show obr2 = [lbrace, lbrace] from rfl] at ht
        cases u' with
        | nil =>
          have h0 := ht
          simp only [List.cons_append, List.nil_append, List.cons.injEq] at h0
          exact absurd (by rw [h0.1]; rfl) hlast
        | cons d u'' =>
          have h0 := ht
          simp only [List.cons_append, List.append_assoc, List.cons.injEq] at h0
          obtain ⟨hc, hd, -⟩ := h0
          have hlast'' : u''.getLast? ≠ some lbrace := by
            cases hu'' : u'' with
            | nil => simp
            | cons e u''' =>
              rw [← hu'']
              have g1 : (c :: d :: u'').getLast? = (d :: u'').getLast? :=
                getLast?_cons_of_ne_nil (by simp)
              have g2 : (d :: u'').getLast? = u''.getLast? :=
                getLast?_cons_of_ne_nil (by simp [hu''])
              rw [g1, g2] at hlast
              exact hlast
          obtain ⟨w0, hw0⟩ := ih u'' m v (by simp at hu ⊢; omega) hlast'' hm
          refine ⟨lbrace :: w0, ?_⟩
          have hL : (c :: d :: u'') ++ obr2 ++ m ++ v
              = c :: (d :: (u'' ++ obr2 ++ m ++ v)) := by simp
          rw [hL, replaceAll, if_pos (by rw [← hL]; exact hpre)]
          rw [show obr2.length - 1 = 1 from rfl]
          rw [show List.drop 1 (d :: (u'' ++ obr2 ++ m ++ v))
              = u'' ++ obr2 ++ m ++ v from rfl]
          rw [hw0]
          simp [obr1]
      · have hlast' : u'.getLast? ≠ some lbrace := by
          cases hu' : u' with
          | nil => simp
          | cons e u''' =>
            rw [← hu']
            rw [getLast?_cons_of_ne_nil (by simp [hu'])] at hlast
            exact hlast
        obtain ⟨w0, hw0⟩ := ih u' m v (by simp at hu ⊢; omega) hlast' hm
        refine ⟨c :: w0, ?_⟩
        have hL : (c :: u') ++ obr2 ++ m ++ v = c :: (u' ++ obr2 ++ m ++ v) := by simp
        rw [hL, replaceAll, if_neg (by rw [← hL]; exact hpre)]
        rw [show u' ++ obr2 ++ m ++ v = (u' ++ obr2 ++ m ++ v) from rfl, hw0]
        simp

theorem replaceAll_close_protect :
    ∀ (n : Nat) (u m v : GoStr), u.length ≤ n → m ≠ [] → (∀ x ∈ m, x ≠ rbrace) →
      ∃ w, replaceAll cbr2 cbr1 (u ++ m ++ cbr2 ++ v)
            = w ++ m ++ cbr1 ++ replaceAll cbr2 cbr1 v := by
  intro n
  induction n with
  | zero =>
    intro u m v hu hm0 hm
    have hu0 : u = [] := List.length_eq_zero.mp (by omega)
    subst hu0
    refine ⟨[], ?_⟩
    rw [List.nil_append, replaceAll_close_step m v hm]
  | succ n ih =>
    intro u m v hu hm0 hm
    cases u with
    | nil =>
      refine ⟨[], ?_⟩
      rw [List.nil_append, replaceAll_close_step m v hm]
    | cons c u' =>
      by_cases hpre : cbr2.isPrefixOf ((c :: u') ++ m ++ cbr2 ++ v) = true
      · obtain ⟨t, ht⟩ := (isPrefixOf_iff _ _).mp hpre
        rw [show cbr2 = [rbrace, rbrace] from rfl] at ht
        cases u' with
        | nil =>
          exfalso
          cases m with
          | nil => exact hm0 rfl
          | cons a m' =>
            have h0 := ht
            simp only [List.cons_append, List.nil_append, List.append_assoc,
              List.cons.injEq] at h0
            exact hm a (by simp) h0.2.1
        | cons d u'' =>
          have h0 := ht
          simp only [List.cons_append, List.append_assoc, List.cons.injEq] at h0
          obtain ⟨hc, hd, -⟩ := h0
          obtain ⟨w0, hw0⟩ := ih u'' m v (by simp at hu ⊢; omega) hm0 hm
          refine ⟨rbrace :: w0, ?_⟩
          have hL : (c :: d :: u'') ++ m ++ cbr2 ++ v
              = c :: (d :: (u'' ++ m ++ cbr2 ++ v)) := by simp
          rw [hL, replaceAll, if_pos (by rw [← hL]; exact hpre)]
          rw [show cbr2.length - 1 = 1 from rfl]
          rw [show List.drop 1 (d :: (u'' ++ m ++ cbr2 ++ v))
              = u'' ++ m ++ cbr2 ++ v from rfl]
          rw [hw0]
          simp [cbr1]
      · obtain ⟨w0, hw0⟩ := ih u' m v (by simp at hu ⊢; omega) hm0 hm
        refine ⟨c :: w0, ?_⟩
        have hL : (c :: u') ++ m ++ cbr2 ++ v = c :: (u' ++ m ++ cbr2 ++ v) := by simp
        rw [hL, replaceAll, if_neg (by rw [← hL]; exact hpre)]
        rw [hw0]
        simp

/-! ## Facts about the extraction scan -/

theorem scan_bounds {s : GoStr} {i j : Nat}
    (h1 : indexOf obr2 s = some i) (h2 : indexOf cbr2 (s.drop i) = some j) :
    2 ≤ j ∧ i + j + 2 ≤ s.length := by
  obtain ⟨t, ht⟩ := indexOf_spec h1
  obtain ⟨t2, ht2⟩ := indexOf_spec h2
  have l1 := congrArg List.length ht
  have l2 := congrArg List.length ht2
  simp only [List.length_drop, List.length_append,
    show obr2.length = 2 from rfl, show cbr2.length = 2 from rfl] at l1 l2
  have hj2 : 2 ≤ j := by
    rcases j with _ | _ | j'
    · rw [List.drop_zero, ht] at ht2
      have hhd := congrArg List.head? ht2
      simp [obr2, cbr2, lbrace, rbrace] at hhd
    · rw [ht] at ht2
      rw [show (obr2 ++ t : GoStr).drop (0 + 1) = lbrace :: t from rfl] at ht2
      have hhd := congrArg List.head? ht2
      simp [cbr2, lbrace, rbrace] at hhd
    · omega
  exact ⟨hj2, by omega⟩

theorem extractVarsF_stop_no_open (cm : ConfigMap) (fuel : Nat) (s : GoStr)
    (acc : List (GoStr × InputSchema)) (h : indexOf obr2 s = none) :
    extractVarsF cm fuel s acc = acc := by
  cases fuel with
  | zero => rfl
  | succ n => simp only [extractVarsF, h]

theorem extractVarsF_stop_no_close (cm : ConfigMap) (fuel : Nat) (s : GoStr)
    (acc : List (GoStr × InputSchema)) (i : Nat)
    (h1 : indexOf obr2 s = some i) (h2 : indexOf cbr2 (s.drop i) = none) :
    extractVarsF cm fuel s acc = acc := by
  cases fuel with
  | zero => rfl
  | succ n => simp only [extractVarsF, h1, h2]

theorem extractVarsF_step (cm : ConfigMap) (n : Nat) (s : GoStr)
    (acc : List (GoStr × InputSchema)) (i j : Nat)
    (h1 : indexOf obr2 s = some i) (h2 : indexOf cbr2 (s.drop i) = some j) :
    extractVarsF cm (n + 1) s acc
      = extractVarsF cm n (s.drop (i + j + 2))
          (mapInsert acc ((splitOnChar '|' (goSlice s (i + 2) (i + j))).headD [])
            (mkSchema cm ((splitOnChar '|' (goSlice s (i + 2) (i + j))).headD []))) := by
  simp only [extractVarsF, h1, h2]

theorem extractContentsF_stop_no_open (fuel : Nat) (s : GoStr)
    (h : indexOf obr2 s = none) : extractContentsF fuel s = [] := by
  cases fuel with
  | zero => rfl
  | succ n => simp only [extractContentsF, h]

theorem extractContentsF_stop_no_close (fuel : Nat) (s : GoStr) (i : Nat)
    (h1 : indexOf obr2 s = some i) (h2 : indexOf cbr2 (s.drop i) = none) :
    extractContentsF fuel s = [] := by
  cases fuel with
  | zero => rfl
  | succ n => simp only [extractContentsF, h1, h2]

theorem extractContentsF_step (n : Nat) (s : GoStr) (i j : Nat)
    (h1 : indexOf obr2 s = some i) (h2 : indexOf cbr2 (s.drop i) = some j) :
    extractContentsF (n + 1) s
      = goSlice s (i + 2) (i + j) :: extractContentsF n (s.drop (i + j + 2)) := by
  simp only [extractContentsF, h1, h2]

theorem extractContents_decomp :
    ∀ (fuel : Nat) (s : GoStr), ∀ m ∈ extractContentsF fuel s,
      ∃ u v, s = u ++ obr2 ++ m ++ cbr2 ++ v ∧ u.getLast? ≠ some lbrace := by
  intro fuel
  induction fuel with
  | zero =>
    intro s m hm
    simp [extractContentsF] at hm
  | succ n ih =>
    intro s m hm
    cases h1 : indexOf obr2 s with
    | none => rw [extractContentsF_stop_no_open _ _ h1] at hm; simp at hm
    | some i =>
      cases h2 : indexOf cbr2 (s.drop i) with
      | none => rw [extractContentsF_stop_no_close _ _ _ h1 h2] at hm; simp at hm
      | some j =>
        rw [extractContentsF_step n s i j h1 h2, List.mem_cons] at hm
        obtain ⟨hj2, hlen⟩ := scan_bounds h1 h2
        obtain ⟨t, ht⟩ := indexOf_spec h1
        obtain ⟨t2, ht2⟩ := indexOf_spec h2
        have e2 : s.drop i = obr2 ++ s.drop (i + 2) := by
          rw [ht]
          congr 1
          have hx : (s.drop i).drop 2 = t := by rw [ht]; rfl
          rw [← hx, ← drop_add]
        have e3 : s.drop (i + j) = cbr2 ++ s.drop (i + j + 2) := by
          have hd : (s.drop i).drop j = s.drop (i + j) := (drop_add s i j).symm
          rw [hd] at ht2
          rw [ht2]
          congr 1
          have hx : (s.drop (i + j)).drop 2 = t2 := by rw [ht2]; rfl
          rw [← hx, ← drop_add]
        have e4 : s.drop (i + 2) = goSlice s (i + 2) (i + j) ++ s.drop (i + j) := by
          unfold goSlice
          have h5 : (s.drop (i + 2)).drop (j - 2) = s.drop (i + j) := by
            rw [← drop_add]
            congr 1
            omega
          rw [show i + j - (i + 2) = j - 2 from by omega, ← h5, List.take_append_drop]
        have edecomp : s = s.take i ++ obr2 ++ goSlice s (i + 2) (i + j)
            ++ cbr2 ++ s.drop (i + j + 2) := by
          conv_lhs => rw [← List.take_append_drop i s]
          rw [e2, e4, e3]
          simp [List.append_assoc]
        have hlast : (s.take i).getLast? ≠ some lbrace := by
          cases i with
          | zero => simp
          | succ i' =>
            have hi'len : i' < s.length := by omega
            have hne : s.drop i' ≠ [] := by
              intro h0
              have hlen0 := congrArg List.length h0
              simp only [List.length_drop, List.length_nil] at hlen0
              omega
            obtain ⟨c, rest, hcr⟩ : ∃ c rest, s.drop i' = c :: rest := by
              cases hd : s.drop i' with
              | nil => exact absurd hd hne
              | cons c rest => exact ⟨c, rest, rfl⟩
            have hmin := indexOf_min h1 i' (by omega)
            have hc : c ≠ lbrace := by
              intro hceq
              have hpre : obr2.isPrefixOf (s.drop i') = true := by
                apply (isPrefixOf_iff _ _).mpr
                refine ⟨lbrace :: t, ?_⟩
                have hrest : rest = s.drop (i' + 1) := by
                  have hx : (s.drop i').drop 1 = s.drop (i' + 1) := by rw [← drop_add]
                  rw [hcr] at hx
                  rw [← hx]
                  simp
                rw [hcr, hrest, ht, hceq]
                rfl
              rw [hmin] at hpre
              exact Bool.false_ne_true hpre
            have htake : s.take (i' + 1) = s.take i' ++ [c] := by
              have hA : (s.take i').length = i' := by
                rw [List.length_take]
                omega
              conv_lhs => rw [← List.take_append_drop i' s]
              rw [hcr, List.take_append_eq_append_take,
                List.take_of_length_le (by omega : (s.take i').length ≤ i' + 1), hA,
                show i' + 1 - i' = 1 from by omega]
              rfl
            rw [htake, List.getLast?_concat]
            intro hcon
            exact hc (by injection hcon)
        cases hm with
        | inl hhead =>
          exact ⟨s.take i, s.drop (i + j + 2), by rw [hhead]; exact edecomp, hlast⟩
        | inr htail =>
          obtain ⟨u0, v0, hdec0, hlast0⟩ := ih (s.drop (i + j + 2)) m htail
          refine ⟨s.take i ++ obr2 ++ goSlice s (i + 2) (i + j) ++ cbr2 ++ u0, v0, ?_, ?_⟩
          · calc s = s.take i ++ obr2 ++ goSlice s (i + 2) (i + j) ++ cbr2
                  ++ s.drop (i + j + 2) := edecomp
              _ = s.take i ++ obr2 ++ goSlice s (i + 2) (i + j) ++ cbr2
                  ++ (u0 ++ obr2 ++ m ++ cbr2 ++ v0) := by rw [hdec0]
              _ = s.take i ++ obr2 ++ goSlice s (i + 2) (i + j) ++ cbr2 ++ u0
                  ++ obr2 ++ m ++ cbr2 ++ v0 := by simp [List.append_assoc]
          · cases hu0 : u0 with
            | nil =>
              subst hu0
              simp only [List.append_nil]
              rw [List.getLast?_append_of_ne_nil _ (by simp [cbr2] : cbr2 ≠ [])]
              simp [cbr2, lbrace, rbrace]
            | cons e u0' =>
              subst hu0
              rw [List.getLast?_append_of_ne_nil _ (by simp : e :: u0' ≠ [])]
              exact hlast0

theorem extractVarsF_keys_mono (cm : ConfigMap) :
    ∀ (fuel : Nat) (s : GoStr) (acc : List (GoStr × InputSchema)) (x : GoStr),
      x ∈ acc.map Prod.fst → x ∈ (extractVarsF cm fuel s acc).map Prod.fst := by
  intro fuel
  induction fuel with
  | zero => intro s acc x hx; exact hx
  | succ n ih =>
    intro s acc x hx
    cases h1 : indexOf obr2 s with
    | none => rw [extractVarsF_stop_no_open cm _ _ _ h1]; exact hx
    | some i =>
      cases h2 : indexOf cbr2 (s.drop i) with
      | none => rw [extractVarsF_stop_no_close cm _ _ _ _ h1 h2]; exact hx
      | some j =>
        rw [extractVarsF_step cm n s acc i j h1 h2]
        exact ih _ _ x (mem_keys_mapInsert_mono _ _ _ x hx)

theorem extractContentsF_key_mem (cm : ConfigMap) :
    ∀ (fuel : Nat) (s : GoStr) (acc : List (GoStr × InputSchema)),
      ∀ m ∈ extractContentsF fuel s,
        (splitOnChar '|' m).headD [] ∈ (extractVarsF cm fuel s acc).map Prod.fst := by
  intro fuel
  induction fuel with
  | zero => intro s acc m hm; simp [extractContentsF] at hm
  | succ n ih =>
    intro s acc m hm
    cases h1 : indexOf obr2 s with
    | none => rw [extractContentsF_stop_no_open _ _ h1] at hm; simp at hm
    | some i =>
      cases h2 : indexOf cbr2 (s.drop i) with
      | none => rw [extractContentsF_stop_no_close _ _ _ h1 h2] at hm; simp at hm
      | some j =>
        rw [extractContentsF_step n s i j h1 h2, List.mem_cons] at hm
        rw [extractVarsF_step cm n s acc i j h1 h2]
        cases hm with
        | inl hhead =>
          rw [hhead]
          exact extractVarsF_keys_mono cm n _ _ _ (mem_keys_mapInsert_self _ _ _)
        | inr htail => exact ih _ _ m htail


/-! ## Sample inputs used by witnesses and counterexamples -/

/-- A remote-typed entry with a remote transport descriptor present. -/
def remoteSomeEntry : DockerCatalogEntry :=
  { type := gs "remote",
    Remote := some { TransportType := gs "sse", URL := gs "https://api.example.com/mcp" } }

/-- A remote-typed entry with no remote transport descriptor. -/
def remoteNilEntry : DockerCatalogEntry :=
  { type := gs "remote", Image := gs "docker/example:1.0" }

/-- A containerized entry with one secret. -/
def secretSampleEntry : DockerCatalogEntry :=
  { Image := gs "docker/tool:latest",
    Secrets := [{ Name := gs "API_KEY", Env := gs "KEY_ENV" }] }

/-- A config block whose single property value is not a JSON object. -/
def nonObjConfig : Config :=
  { Name := gs "cfg", Properties := [(gs "prop", JSONValue.str (gs "v"))] }

/-- A description of 101 characters. -/
def longDescription : GoStr := gs "aaaaaaaaaaaaaaaaaaaaaaaaaaaaaaaaaaaaaaaaaaaaaaaaaaaaaaaaaaaaaaaaaaaaaaaaaaaaaaaaaaaaaaaaaaaaaaaaaaaaa"

/-! ## Claims -/

/-- Claim C1, counterexample: on `"\x7b\x7bx\x7d\x7d-\x7b\x7by|secret\x7d\x7d"` the
canonicalization does not return `"\x7bx\x7d-\x7by\x7d"`: `convertBraces` is a blind
doubled-brace collapse and keeps the `|secret` modifier text. -/
theorem convertBraces_keeps_modifiers :
    convertBraces (gs "\x7b\x7bx\x7d\x7d-\x7b\x7by|secret\x7d\x7d") ≠ gs "\x7bx\x7d-\x7by\x7d" := by
  have h : convertBraces (gs "\x7b\x7bx\x7d\x7d-\x7b\x7by|secret\x7d\x7d")
      = gs "\x7bx\x7d-\x7by|secret\x7d" := by
    simp [convertBraces, replaceAll, gs, obr2, obr1, cbr2, cbr1, lbrace, rbrace,
      List.isPrefixOf]
  rw [h]
  decide

/-- Claim C1 (amended): for the input `"\x7b\x7bx\x7d\x7d-\x7b\x7by|secret\x7d\x7d"`,
canonicalization returns `"\x7bx\x7d-\x7by|secret\x7d"` (modifiers are retained, the
doubled braces are collapsed) and the variables extracted are exactly the keys
`x` and `y` in scan order. -/
theorem convertBraces_extractVars_on_sample :
    convertBraces (gs "\x7b\x7bx\x7d\x7d-\x7b\x7by|secret\x7d\x7d")
        = gs "\x7bx\x7d-\x7by|secret\x7d" ∧
      (extractVars (gs "\x7b\x7bx\x7d\x7d-\x7b\x7by|secret\x7d\x7d") []).map Prod.fst
        = [gs "x", gs "y"] := by
  constructor
  · simp [convertBraces, replaceAll, gs, obr2, obr1, cbr2, cbr1, lbrace, rbrace,
      List.isPrefixOf]
  · decide

/-- Claim C2, counterexample: `y` is a key of the Variables map extracted from
`"\x7b\x7by|secret\x7d\x7d"`, but the token `"\x7by\x7d"` does not occur in the canonical
form `"\x7by|secret\x7d"`. -/
theorem varToken_not_in_canonical_sample :
    gs "y" ∈ (extractVars (gs "\x7b\x7by|secret\x7d\x7d") []).map Prod.fst ∧
      ¬ SubStr (gs "\x7by\x7d") (convertBraces (gs "\x7b\x7by|secret\x7d\x7d")) := by
  constructor
  · decide
  · intro hsub
    have hb := (containsSub_iff _ _).mpr hsub
    have hconv : convertBraces (gs "\x7b\x7by|secret\x7d\x7d") = gs "\x7by|secret\x7d" := by
      simp [convertBraces, replaceAll, gs, obr2, obr1, cbr2, cbr1, lbrace, rbrace,
        List.isPrefixOf]
    rw [hconv] at hb
    exact absurd hb (by decide)

/-- Claim C2 (amended): every placeholder content scanned by `extractVars`
that contains no brace and no pipe character is a key of the produced
Variables map, and its single-brace token `\x7bcontent\x7d` occurs as a substring
of the canonical form produced by `convertBraces`.  (The unrestricted claim
fails: modifiers are kept by canonicalization, and brace characters inside a
placeholder content realign the blind brace collapse.) -/
theorem extract_content_token_in_canonical (configMap : ConfigMap) (value m : GoStr)
    (hmem : m ∈ extractContents value)
    (hclean : ∀ c ∈ m, c ≠ lbrace ∧ c ≠ rbrace ∧ c ≠ '|') :
    m ∈ (extractVars value configMap).map Prod.fst ∧
      SubStr (obr1 ++ m ++ cbr1) (convertBraces value) := by
  constructor
  · have hkey := extractContentsF_key_mem configMap value.length value [] m hmem
    rwa [headD_splitOnChar_of_no_sep '|' m (fun c hc => (hclean c hc).2.2)] at hkey
  · obtain ⟨u, v, hdecomp, hlast⟩ := extractContents_decomp value.length value m hmem
    obtain ⟨w, hw⟩ := replaceAll_open_protect u.length u m (cbr2 ++ v) le_rfl hlast
      (fun c hc => (hclean c hc).1)
    have hcv : replaceAll obr2 obr1 (cbr2 ++ v) = cbr2 ++ replaceAll obr2 obr1 v :=
      replaceAll_copy_no_open cbr2 v (by
        intro x hx
        have hxr : x = rbrace := by simpa [cbr2] using hx
        rw [hxr]
        decide)
    have hstage1 : replaceAll obr2 obr1 value
        = w ++ obr1 ++ m ++ cbr2 ++ replaceAll obr2 obr1 v := by
      rw [hdecomp]
      rw [show u ++ obr2 ++ m ++ cbr2 ++ v = u ++ obr2 ++ m ++ (cbr2 ++ v) from by
        simp [List.append_assoc]]
      rw [hw, hcv]
      simp [List.append_assoc]
    obtain ⟨w2, hw2⟩ := replaceAll_close_protect w.length w (obr1 ++ m)
      (replaceAll obr2 obr1 v) le_rfl (by simp [obr1]) (by
        intro x hx
        rcases List.mem_append.mp hx with h | h
        · have : x = lbrace := by simpa [obr1] using h
          rw [this]
          decide
        · exact (hclean x h).2.1)
    refine ⟨w2, replaceAll cbr2 cbr1 (replaceAll obr2 obr1 v), ?_⟩
    show replaceAll cbr2 cbr1 (replaceAll obr2 obr1 value) = _
    rw [hstage1]
    rw [show w ++ obr1 ++ m ++ cbr2 ++ replaceAll obr2 obr1 v
        = w ++ (obr1 ++ m) ++ cbr2 ++ replaceAll obr2 obr1 v from by
      simp [List.append_assoc]]
    rw [hw2]
    simp [List.append_assoc]

/-- Witness for the amended claim C2, at the value `"a\x7b\x7bx\x7d\x7db"` and
content `"x"`. -/
theorem extract_content_token_in_canonical_witness :
    gs "x" ∈ (extractVars (gs "a\x7b\x7bx\x7d\x7db") []).map Prod.fst ∧
      SubStr (obr1 ++ gs "x" ++ cbr1) (convertBraces (gs "a\x7b\x7bx\x7d\x7db")) :=
  extract_content_token_in_canonical [] (gs "a\x7b\x7bx\x7d\x7db") (gs "x")
    (by decide) (by decide)

/-- Claim C3: every `transformEntry` result has a non-empty Packages list or
a non-empty Remotes list, and never both non-empty at once. -/
theorem transformEntry_packages_xor_remotes (name : GoStr) (entry : DockerCatalogEntry) :
    ((transformEntry name entry).Packages ≠ [] ∨ (transformEntry name entry).Remotes ≠ []) ∧
      ¬((transformEntry name entry).Packages ≠ [] ∧ (transformEntry name entry).Remotes ≠ []) := by
  simp only [transformEntry]
  by_cases htype : entry.type = gs "remote"
  · rw [if_pos htype]
    cases hrem : entry.Remote with
    | some r =>
      constructor
      · right
        simp
      · rintro ⟨hp, _⟩
        exact hp rfl
    | none =>
      simp only [apply_ite RegistryServer.Packages, apply_ite RegistryServer.Remotes,
        ite_self]
      constructor
      · left
        simp
      · rintro ⟨_, hr⟩
        exact hr rfl
  · rw [if_neg htype]
    simp only [apply_ite RegistryServer.Packages, apply_ite RegistryServer.Remotes,
      ite_self]
    constructor
    · left
      simp
    · rintro ⟨_, hr⟩
      exact hr rfl

/-- The description field of a transformed entry, isolated. -/
theorem transformEntry_description (name : GoStr) (entry : DockerCatalogEntry) :
    (transformEntry name entry).Description
      = if 100 < entry.Description.length then entry.Description.take 97 ++ gs "..."
        else entry.Description := by
  simp only [transformEntry]
  by_cases htype : entry.type = gs "remote"
  · rw [if_pos htype]
    cases hrem : entry.Remote with
    | some r => rfl
    | none =>
      simp only [apply_ite RegistryServer.Description, ite_self]
  · rw [if_neg htype]
    simp only [apply_ite RegistryServer.Description, ite_self]

/-- Claim C5: the output description equals the input description when its
length is at most 100; otherwise the output description has length exactly
100, equals the first 97 characters followed by `"..."`, and ends with
`"..."`. -/
theorem transformEntry_description_truncation (name : GoStr) (entry : DockerCatalogEntry) :
    (entry.Description.length ≤ 100 →
        (transformEntry name entry).Description = entry.Description) ∧
      (100 < entry.Description.length →
        (transformEntry name entry).Description.length = 100 ∧
        (transformEntry name entry).Description
          = entry.Description.take 97 ++ gs "..." ∧
        ∃ u, (transformEntry name entry).Description = u ++ gs "...") := by
  constructor
  · intro h
    rw [transformEntry_description, if_neg (by omega)]
  · intro h
    rw [transformEntry_description, if_pos h]
    refine ⟨?_, rfl, ⟨entry.Description.take 97, rfl⟩⟩
    have h3 : (gs "...").length = 3 := rfl
    rw [List.length_append, List.length_take, h3, Nat.min_eq_left (by omega)]

/-- Witness for claim C5: a short description passes through unchanged, a
101-character description is truncated to exactly 100 characters. -/
theorem transformEntry_description_truncation_witness :
    (transformEntry (gs "srv") ({ Description := gs "short" } : DockerCatalogEntry)).Description
        = ({ Description := gs "short" } : DockerCatalogEntry).Description ∧
      (transformEntry (gs "srv")
          ({ Description := longDescription } : DockerCatalogEntry)).Description.length = 100 :=
  ⟨(transformEntry_description_truncation (gs "srv") _).1 (by decide),
   ((transformEntry_description_truncation (gs "srv") _).2 (by decide)).1⟩

/-- Claim C6: for a non-remote entry, each secret `(name, env)` contributes an
environment-variable descriptor with `Name = env`, `Value = "\x7b" ++ name ++ "\x7d"`
and exactly one Variables entry, keyed by the secret name, whose schema has
`IsSecret = true` and `IsRequired = true`, independent of any config metadata. -/
theorem transformEntry_secret_env_descriptors (name : GoStr) (entry : DockerCatalogEntry)
    (h : entry.type ≠ gs "remote") :
    ∃ pkg envs, (transformEntry name entry).Packages = [pkg] ∧
      pkg.EnvironmentVariables
        = envs ++ entry.Secrets.map (fun secret =>
            ({ Name := secret.Env,
               Value := obr1 ++ secret.Name ++ cbr1,
               Variables := [(secret.Name,
                 ({ IsSecret := true, IsRequired := true } : InputSchema))] } : KeyValueInput)) := by
  simp only [transformEntry]
  rw [if_neg h]
  simp only [apply_ite RegistryServer.Packages, ite_self]
  refine ⟨_, entry.Env.map (fun env =>
    let value := convertBraces env.Value
    let kv : KeyValueInput := { Name := env.Name, Value := value }
    if containsSub env.Value obr2 then
      let vars := extractVars env.Value (buildConfigMap entry.Config)
      if vars.length > 0 then
        { kv with Variables := vars, IsRepeated := false }
      else kv
    else kv), rfl, ?_⟩
  simp only [apply_ite Package.EnvironmentVariables, ite_self]

/-- Witness for claim C6, at a concrete entry with one secret. -/
theorem transformEntry_secret_env_descriptors_witness :
    ∃ pkg envs, (transformEntry (gs "srv") secretSampleEntry).Packages = [pkg] ∧
      pkg.EnvironmentVariables
        = envs ++ secretSampleEntry.Secrets.map (fun secret =>
            ({ Name := secret.Env,
               Value := obr1 ++ secret.Name ++ cbr1,
               Variables := [(secret.Name,
                 ({ IsSecret := true, IsRequired := true } : InputSchema))] } : KeyValueInput)) :=
  transformEntry_secret_env_descriptors (gs "srv") secretSampleEntry (by decide)

/-- The batch fold of `main`, with an arbitrary accumulator. -/
theorem mainServers_foldl_aux :
    ∀ (registry : List (GoStr × DockerCatalogEntry)) (acc : List RegistryServer),
      registry.foldl (fun servers p =>
          if p.2.type = gs "remote" then servers
          else servers ++ [transformEntry p.1 p.2]) acc
        = acc ++ (registry.filter (fun p => p.2.type ≠ gs "remote")).map
            (fun p => transformEntry p.1 p.2) := by
  intro registry
  induction registry with
  | nil => intro acc; simp
  | cons p rest ih =>
    intro acc
    rw [List.foldl_cons, List.filter_cons]
    by_cases hp : p.2.type = gs "remote"
    · rw [if_pos hp, ih]
      have hd : decide (p.2.type ≠ gs "remote") = false := by simp [hp]
      rw [hd]
      simp
    · rw [if_neg hp, ih]
      have hd : decide (p.2.type ≠ gs "remote") = true := by simp [hp]
      rw [hd]
      simp

/-- Claim C4, counterexample: an entry of type `"remote"` whose `Remote`
field is nil falls through to the containerized branch and its descriptor
does have packages. -/
theorem transformEntry_remote_nil_has_packages :
    remoteNilEntry.type = gs "remote" ∧
      (transformEntry (gs "example") remoteNilEntry).Packages ≠ [] :=
  ⟨by decide, by decide⟩

/-- Claim C4 (amended): the batch loop emits exactly the non-remote entries,
each transformed independently, in iteration order; and an entry of type
`"remote"` whose `Remote` descriptor is present is transformed to a
descriptor with no packages.  (The unamended claim fails for entries of type
`"remote"` with a nil `Remote` field, which do get packages.) -/
theorem mainServers_filter_and_remote_packages :
    (∀ registry : List (GoStr × DockerCatalogEntry),
        mainServers registry
          = (registry.filter (fun p => p.2.type ≠ gs "remote")).map
              (fun p => transformEntry p.1 p.2)) ∧
      ∀ (name : GoStr) (entry : DockerCatalogEntry) (r : Remote),
        entry.type = gs "remote" → entry.Remote = some r →
        (transformEntry name entry).Packages = [] := by
  constructor
  · intro registry
    rw [mainServers, mainServers_foldl_aux]
    rw [List.nil_append]
  · intro name entry r htype hrem
    simp only [transformEntry]
    rw [if_pos htype, hrem]

/-- Witness for the amended claim C4: a remote entry with a transport
descriptor has no packages, and a batch of one remote entry is empty. -/
theorem mainServers_filter_and_remote_packages_witness :
    (transformEntry (gs "a") remoteSomeEntry).Packages = [] ∧
      mainServers [(gs "a", remoteSomeEntry)] = [] :=
  ⟨mainServers_filter_and_remote_packages.2 (gs "a") remoteSomeEntry _ rfl rfl,
   by rw [mainServers_filter_and_remote_packages.1]; rfl⟩

/-- Claim C7: on a string containing neither `"\x7b\x7b"` nor `"\x7d\x7d"`,
`convertBraces` is the identity and `extractVars` returns the empty map. -/
theorem convertBraces_extractVars_no_braces_id (configMap : ConfigMap) (s : GoStr)
    (h1 : ¬ SubStr obr2 s) (h2 : ¬ SubStr cbr2 s) :
    convertBraces s = s ∧ extractVars s configMap = [] := by
  have i1 : indexOf obr2 s = none := by
    cases hi : indexOf obr2 s with
    | none => rfl
    | some i =>
      exfalso
      apply h1
      rw [← containsSub_iff]
      simp [containsSub, hi]
  have i2 : indexOf cbr2 s = none := by
    cases hi : indexOf cbr2 s with
    | none => rfl
    | some i =>
      exfalso
      apply h2
      rw [← containsSub_iff]
      simp [containsSub, hi]
  refine ⟨?_, extractVarsF_stop_no_open configMap s.length s [] i1⟩
  unfold convertBraces
  rw [replaceAll_of_indexOf_none i1, replaceAll_of_indexOf_none i2]

/-- Witness for claim C7, at the double-brace-free string `"plain-text"`. -/
theorem convertBraces_extractVars_no_braces_id_witness :
    convertBraces (gs "plain-text") = gs "plain-text" ∧
      extractVars (gs "plain-text") [] = [] :=
  convertBraces_extractVars_no_braces_id [] (gs "plain-text")
    (fun hsub => absurd ((containsSub_iff _ _).mpr hsub) (by decide))
    (fun hsub => absurd ((containsSub_iff _ _).mpr hsub) (by decide))

/-- The inner fold of `buildConfigMap` leaves the index unchanged when no
property value is a JSON object. -/
theorem buildConfigMap_inner_skip (cfg : Config) :
    ∀ (props : PropBag) (acc : ConfigMap),
      (∀ kv ∈ props, ∀ fields, kv.2 ≠ JSONValue.obj fields) →
      props.foldl (fun res kv =>
        match kv.2 with
        | JSONValue.obj propMap => mapInsert res (cfg.Name ++ gs "." ++ kv.1) propMap
        | _ => res) acc = acc := by
  intro props
  induction props with
  | nil => intro acc _; rfl
  | cons kv rest ih =>
    intro acc hall
    rw [List.foldl_cons]
    have hkv := hall kv (by simp)
    have htail : ∀ kv' ∈ rest, ∀ fields, kv'.2 ≠ JSONValue.obj fields :=
      fun kv' h' => hall kv' (List.mem_cons_of_mem _ h')
    cases hv : kv.2 with
    | obj fields => exact absurd hv (hkv fields)
    | null => exact ih _ htail
    | bool b => exact ih _ htail
    | num q => exact ih _ htail
    | str st => exact ih _ htail
    | arr es => exact ih _ htail

/-- The outer fold of `buildConfigMap` leaves the index unchanged when no
property value of any block is a JSON object. -/
theorem buildConfigMap_outer_skip :
    ∀ (configs : List Config) (acc : ConfigMap),
      (∀ cfg ∈ configs, ∀ kv ∈ cfg.Properties, ∀ fields, kv.2 ≠ JSONValue.obj fields) →
      configs.foldl (fun result cfg =>
        cfg.Properties.foldl (fun res kv =>
          match kv.2 with
          | JSONValue.obj propMap => mapInsert res (cfg.Name ++ gs "." ++ kv.1) propMap
          | _ => res) result) acc = acc := by
  intro configs
  induction configs with
  | nil => intro acc _; rfl
  | cons cfg rest ih =>
    intro acc hall
    rw [List.foldl_cons, buildConfigMap_inner_skip cfg _ _ (hall cfg (by simp))]
    exact ih _ (fun c hc => hall c (List.mem_cons_of_mem _ hc))

/-- Claim C8: an occurrence of `"\x7b\x7b"` with no subsequent `"\x7d\x7d"` makes the
extraction loop return the variables collected so far, extracting nothing for
that occurrence or after it; and `buildConfigMap` silently skips non-object
property values.  (Both functions are total Lean functions, so neither can
raise an error.) -/
theorem extract_unterminated_and_config_skip :
    (∀ (configMap : ConfigMap) (fuel : Nat) (s : GoStr)
        (acc : List (GoStr × InputSchema)) (i : Nat),
        indexOf obr2 s = some i → indexOf cbr2 (s.drop i) = none →
        extractVarsF configMap fuel s acc = acc) ∧
      ∀ configs : List Config,
        (∀ cfg ∈ configs, ∀ kv ∈ cfg.Properties, ∀ fields, kv.2 ≠ JSONValue.obj fields) →
        buildConfigMap configs = [] := by
  constructor
  · intro cm fuel s acc i h1 h2
    exact extractVarsF_stop_no_close cm fuel s acc i h1 h2
  · intro configs hall
    unfold buildConfigMap
    exact buildConfigMap_outer_skip configs [] hall

/-- Witness for claim C8: an unterminated `"\x7b\x7bx"` extracts nothing, and a
config whose property value is a string contributes nothing to the index. -/
theorem extract_unterminated_and_config_skip_witness :
    extractVarsF [] 3 (gs "\x7b\x7bx") [] = [] ∧ buildConfigMap [nonObjConfig] = [] :=
  ⟨extract_unterminated_and_config_skip.1 [] 3 (gs "\x7b\x7bx") [] 0 (by decide) (by decide),
   extract_unterminated_and_config_skip.2 [nonObjConfig] (by
     intro cfg hcfg kv hkv fields heq
     simp only [List.mem_singleton] at hcfg
     subst hcfg
     simp only [nonObjConfig, List.mem_singleton] at hkv
     subst hkv
     simp at heq)⟩

/-- Claim C9: `transformEntry` is deterministic — equal inputs give equal
descriptors, so re-running the transformation on the same catalog snapshot
with the same entry ordering yields identical output.  (Go map iteration
order is fixed by the association-list representation of maps.) -/
theorem transformEntry_deterministic (n₁ n₂ : GoStr) (e₁ e₂ : DockerCatalogEntry)
    (hn : n₁ = n₂) (he : e₁ = e₂) :
    transformEntry n₁ e₁ = transformEntry n₂ e₂ := by
  rw [hn, he]

/-- Witness for claim C9, at a concrete entry. -/
theorem transformEntry_deterministic_witness :
    transformEntry (gs "srv") secretSampleEntry = transformEntry (gs "srv") secretSampleEntry :=
  transformEntry_deterministic (gs "srv") (gs "srv") secretSampleEntry secretSampleEntry
    rfl rfl

/-- Claim C10: when the scan finds `"\x7b\x7b"` at `i` and `"\x7d\x7d"` at offset `j`
after it, then `j ≥ 2` and the suffix passed to the next iteration is at
least four characters shorter than the current one, so the scan position
advances by at least two and the loop terminates. -/
theorem extract_scan_measure_decreases (s : GoStr) (i j : Nat)
    (h1 : indexOf obr2 s = some i) (h2 : indexOf cbr2 (s.drop i) = some j) :
    2 ≤ j ∧ (s.drop (i + j + 2)).length + 4 ≤ s.length := by
  obtain ⟨hj2, hlen⟩ := scan_bounds h1 h2
  refine ⟨hj2, ?_⟩
  rw [List.length_drop]
  omega

/-- Witness for claim C10, at the value `"\x7b\x7bx\x7d\x7d"`. -/
theorem extract_scan_measure_decreases_witness :
    2 ≤ 3 ∧ ((gs "\x7b\x7bx\x7d\x7d").drop (0 + 3 + 2)).length + 4 ≤ (gs "\x7b\x7bx\x7d\x7d").length :=
  extract_scan_measure_decreases (gs "\x7b\x7bx\x7d\x7d") 0 3 (by decide) (by decide)
